import Mathlib

/-!
Verification development for the FNFT core (fast nonlinear Fourier transform).

The development shallowly embeds the parts of the repository that the
checked properties talk about:

* the numeric utilities declared in `fnft__misc.h` (bounding-box filtering,
  tolerance-based merging of near-duplicate complex values, downsampling),
* the buffer-sizing query and scattering-matrix builder declared in
  `fnft__akns_fscatter.h`,
* the top-level transform `fnft_nsev` and its options record declared in
  `fnft_nsev.h`,
* the MATLAB MEX entry point `mexFunction` (input validation and option
  parsing).

Complex samples are embedded as pairs of rationals (`QC`), so that every
definition is executable and every concrete instance can be settled by
`decide`/`rfl`.  Distances are compared through squared moduli, which is
equivalent to comparing moduli for nonnegative tolerances; tolerance
parameters named `tol2` denote the square of the C code's `tol`.

Only the header files and two driver files of the repository are available;
the bodies of the C routines are not.  Definitions for those routines are
therefore modelled from the repository's own header contracts and from the
specification, and each such definition says so in its doc comment.
-/

/-- A complex number with rational real and imaginary parts.  Stands in for
the C type `FNFT_COMPLEX` (`double complex`) in the shallow embedding. -/
structure QC where
  re : ℚ
  im : ℚ
deriving DecidableEq, Repr

/-- Componentwise subtraction of embedded complex values. -/
def QC.sub (a b : QC) : QC := ⟨a.re - b.re, a.im - b.im⟩

/-- Squared modulus `re² + im²` of an embedded complex value. -/
def QC.normSq (a : QC) : ℚ := a.re * a.re + a.im * a.im

/-- Squared distance between two embedded complex values. -/
def QC.dist2 (a b : QC) : ℚ := (a.sub b).normSq

/-- The four corners `[b0, b1, b2, b3]` of the real/imaginary bounding box
passed to `fnft__misc_filter` (`bounding_box` in `fnft__misc.h`). -/
structure BoundingBox where
  b0 : ℚ
  b1 : ℚ
  b2 : ℚ
  b3 : ℚ
deriving DecidableEq, Repr

/-- Membership test of `fnft__misc_filter` from `fnft__misc.h`: a value
survives iff `bounding_box[0] <= real(val) <= bounding_box[1]` and
`bounding_box[2] <= imag(val) <= bounding_box[3]`. -/
def inBox (box : BoundingBox) (v : QC) : Bool :=
  decide (box.b0 ≤ v.re) && decide (v.re ≤ box.b1) &&
  decide (box.b2 ≤ v.im) && decide (v.im ≤ box.b3)

/-- Modelled from the spec: the loop body of `fnft__misc_filter` (whose C
body is not among the provided sources) on a single array, following the
`fnft__misc.h` contract: surviving values are moved to the beginning of the
array in their original relative order, dropped values disappear. -/
def filterGo (box : BoundingBox) : List QC → List QC
  | [] => []
  | v :: rest => if inBox box v then v :: filterGo box rest else filterGo box rest

/-- Modelled from the spec: the loop of `fnft__misc_filter` when
`rearrange_as_well` is non-NULL; both arrays are traversed in lockstep
(embedded as a list of pairs) and an entry of the second array survives
exactly when the corresponding entry of `vals` lies in the bounding box. -/
def filterGo2 (box : BoundingBox) : List (QC × QC) → List (QC × QC)
  | [] => []
  | p :: rest => if inBox box p.1 then p :: filterGo2 box rest else filterGo2 box rest

/-- Modelled from the spec: `fnft__misc_filter` from `fnft__misc.h` (the C
body is not among the provided sources).  Returns the list of survivors
(the first `*N` entries of `vals` on exit) together with the correspondingly
rearranged `rearrange_as_well` array when one is given.  The survivor count
`*N` is the length of the first component. -/
def fnft__misc_filter (vals : List QC) (rearrange_as_well : Option (List QC))
    (box : BoundingBox) : List QC × Option (List QC) :=
  match rearrange_as_well with
  | none => (filterGo box vals, none)
  | some rr =>
      let ps := filterGo2 box (vals.zip rr)
      (ps.map Prod.fst, some (ps.map Prod.snd))

/-- Whether `v` lies strictly within (squared) distance `tol2` of some
already kept value: the merge criterion of `fnft__misc_merge`. -/
def closeToSome (tol2 : ℚ) (kept : List QC) (v : QC) : Bool :=
  kept.any (fun u => decide (QC.dist2 v u < tol2))

/-- Modelled from the spec: the loop of `fnft__misc_merge` (the C body is
not among the provided sources), following the spec's description
"collapse candidates whose pairwise distance is below a tolerance into one
representative": values are scanned left to right and a value is dropped
exactly when it lies within distance `tol` of an already kept
representative (squared distances against `tol2 = tol²`). -/
def mergeGo (tol2 : ℚ) (kept : List QC) : List QC → List QC
  | [] => []
  | v :: rest =>
      if closeToSome tol2 kept v then mergeGo tol2 kept rest
      else v :: mergeGo tol2 (v :: kept) rest

/-- Modelled from the spec: `fnft__misc_merge` from `fnft__misc.h`.
Returns the surviving representatives (the first `*N_ptr` entries of `vals`
on exit); the survivor count is the length of the result. -/
def fnft__misc_merge (tol2 : ℚ) (vals : List QC) : List QC :=
  mergeGo tol2 [] vals

/-- Fuel-based floor base-2 logarithm (structurally recursive so that the
kernel can evaluate it on concrete inputs). -/
def log2floorAux : ℕ → ℕ → ℕ
  | 0, _ => 0
  | fuel + 1, n => if n < 2 then 0 else log2floorAux fuel (n / 2) + 1

/-- Floor base-2 logarithm, `log2floor (2^k) = k`. -/
def log2floor (n : ℕ) : ℕ := log2floorAux n n

/-- Modelled from the spec: the number `Dsub` of samples produced by
`fnft__misc_downsample` (the C body is not among the provided sources).
The `fnft__misc.h` contract requires `Dsub ≥ 2` and an integer subsampling
factor `D/Dsub`; the spec requires `Dsub` to be a power of two dividing `D`,
chosen so that the SUBSAMPLE_AND_REFINE complexity is
`O(D log² D + niter·K·D)`, i.e. `Dsub ≈ √D`.  We model
`Dsub = 2^⌈log2(D)/2⌉`. -/
def downsampleDsub (D : ℕ) : ℕ := 2 ^ ((log2floor D + 1) / 2)

/-- Modelled from the spec: `fnft__misc_downsample` from `fnft__misc.h`.
Returns the decimated signal, the new sample count `Dsub` and the
subsampling factor `D/Dsub`.  The decimated signal keeps every
`factor`-th sample of `q`. -/
def fnft__misc_downsample (q : List QC) (D : ℕ) : List QC × ℕ × ℕ :=
  let Dsub := downsampleDsub D
  let factor := D / Dsub
  ((List.range Dsub).map (fun n => q.getD (n * factor) ⟨0, 0⟩), Dsub, factor)

/-- Error codes of the embedded routines, named after the spec's error
taxonomy (`fnft_errwarn.h` is not among the provided sources). -/
inductive FnftError where
  | InvalidInput
  | InvalidScheme
  | AllocationFailure
  | NumericFailure
deriving DecidableEq, Repr

/-- `fnft__akns_fscatter_numel` from `fnft__akns_fscatter.h`: returns
`4*D*(kdv_discretization_degree(discretization) + 1)` and `0` for unknown
discretizations.  The discretization enum is embedded as a natural number
(the underlying C integer) and the per-scheme degree table
`kdv_discretization_degree` — whose source is not provided — is a
parameter `degTable`, with `degTable disc = none` meaning that `disc` is
not a recognized discretization. -/
def fnft__akns_fscatter_numel (degTable : ℕ → Option ℕ) (D : ℕ) (disc : ℕ) : ℕ :=
  match degTable disc with
  | some d => 4 * D * (d + 1)
  | none => 0

/-- Modelled from the spec: the coefficients contributed by one sample pair
`(q_n, r_n)` in `fnft__akns_fscatter` (the C body is not among the provided
sources).  Each sample yields a 2×2 matrix polynomial of degree `d`, i.e.
`4*(d+1)` complex coefficients; the scheme-specific elementary
transfer-matrix formula is left as the parameter `elem` (spec §9 records it
as not exposed by the excerpted interfaces). -/
def fscatterBlock (elem : QC → QC → ℕ → ℕ → QC) (d : ℕ) (qn rn : QC) : List QC :=
  (List.range (4 * (d + 1))).map (elem qn rn d)

/-- Modelled from the spec: `fnft__akns_fscatter` from
`fnft__akns_fscatter.h`.  For a recognized discretization it writes, sample
by sample, the coefficient blocks of the combined scattering matrix into
the result buffer; for an unrecognized discretization it fails. -/
def fnft__akns_fscatter (degTable : ℕ → Option ℕ) (elem : QC → QC → ℕ → ℕ → QC)
    (D : ℕ) (q r : ℕ → QC) (disc : ℕ) : Except FnftError (List QC) :=
  match degTable disc with
  | none => .error .InvalidScheme
  | some d =>
      .ok (List.flatten ((List.range D).map (fun n => fscatterBlock elem d (q n) (r n))))

/-- `fnft_nsev_bsfilt_t` from `fnft_nsev.h`. -/
inductive BsFilt where
  | NONE
  | BASIC
  | FULL
deriving DecidableEq, Repr

/-- `fnft_nsev_bsloc_t` from `fnft_nsev.h`. -/
inductive BsLoc where
  | FAST_EIGENVALUE
  | NEWTON
  | SUBSAMPLE_AND_REFINE
deriving DecidableEq, Repr

/-- `fnft_nsev_dstype_t` from `fnft_nsev.h`. -/
inductive DsType where
  | NORMING_CONSTANTS
  | RESIDUES
  | BOTH
deriving DecidableEq, Repr

/-- `fnft_nsev_cstype_t` from `fnft_nsev.h`. -/
inductive CsType where
  | REFLECTION_COEFFICIENT
  | AB
  | BOTH
deriving DecidableEq, Repr

/-- `fnft_nse_discretization_t` members that appear in the provided sources
(the MEX option parser in the binding file). -/
inductive NseDiscretization where
  | D2SPLIT2_MODAL
  | D2SPLIT2A
  | D2SPLIT4A
  | D2SPLIT4B
deriving DecidableEq, Repr

/-- `fnft_nsev_opts_t` from `fnft_nsev.h`. -/
structure NsevOpts where
  bound_state_filtering : BsFilt
  bound_state_localization : BsLoc
  niter : ℕ
  discspec_type : DsType
  contspec_type : CsType
  normalization_flag : ℤ
  discretization : NseDiscretization
deriving DecidableEq, Repr

/-- Modelled from the spec: `fnft_nsev_default_opts` (the C body is not
among the provided sources), whose returned record is documented field by
field in `fnft_nsev.h`. -/
def fnft_nsev_default_opts : NsevOpts :=
  { bound_state_filtering := .FULL
    bound_state_localization := .SUBSAMPLE_AND_REFINE
    niter := 10
    discspec_type := .NORMING_CONSTANTS
    contspec_type := .REFLECTION_COEFFICIENT
    normalization_flag := 1
    discretization := .D2SPLIT4B }

/-- Write the detected values `xs` into the caller buffer `buf`, but only
into the first `cap` positions (the capacity declared through `*K_ptr` on
entry to `fnft_nsev`); all other buffer positions keep their previous
contents.  This embeds the truncating write-back of the discrete spectrum. -/
def writeInto : List QC → List QC → ℕ → List QC
  | buf, _, 0 => buf
  | buf, [], _ => buf
  | [], _, _ => []
  | _ :: buf, x :: xs, cap + 1 => x :: writeInto buf xs cap

/-- The black-box numerical kernels consumed by the orchestrator
`fnft_nsev` (spec §1 treats the eigenvalue solver and the per-scheme
numerics as external collaborators; their sources are not provided).
`contspecEval` computes the continuous-spectrum samples, `fastEigen` the
candidate roots of `a(λ)`, `newton` the Newton refinement of a list of
guesses on a signal, and `normconstCompute` the norming constants or
residues of a list of bound states. -/
structure NumericKernels where
  contspecEval : List QC → CsType → List QC
  fastEigen : List QC → List QC
  newton : ℕ → List QC → List QC → List QC
  normconstCompute : List QC → List QC → DsType → List QC

/-- Modelled from the spec: the bound-state localization step of
`fnft_nsev` (spec §4.3; the C body is not among the provided sources).
`guesses` are the caller-supplied initial guesses (the entry contents of
`bound_states`, used by the NEWTON strategy).  The SUBSAMPLE_AND_REFINE
strategy first downsamples the signal, runs the fast eigenvalue method on
the subsampled signal, and refines the resulting coarse guesses with
Newton's method on the full-resolution signal. -/
def nsevLocate (ker : NumericKernels) (opts : NsevOpts) (q : List QC)
    (guesses : List QC) : List QC :=
  match opts.bound_state_localization with
  | .FAST_EIGENVALUE => ker.fastEigen q
  | .NEWTON => ker.newton opts.niter q guesses
  | .SUBSAMPLE_AND_REFINE =>
      let sub := fnft__misc_downsample q q.length
      ker.newton opts.niter q (ker.fastEigen sub.1)

/-- The observable outcome of a successful `fnft_nsev` call: the contents
of the caller-visible buffers on return, the count written back through
`K_ptr`, and whether a truncation warning was emitted through the
diagnostics sink. -/
structure NsevResult where
  contspec : Option (List QC)
  K : ℕ
  bound_states : Option (List QC)
  normconsts_or_residues : Option (List QC)
  capacity_warning : Bool
deriving DecidableEq, Repr

/-- Modelled from the spec: the orchestrator `fnft_nsev` declared in
`fnft_nsev.h` (the C body is not among the provided sources), embedding the
header contract: eager validation of `D`, `T`, `XI` and `kappa`; a NULL
`contspec` skips the continuous spectrum; a NULL `bound_states` skips the
discrete spectrum and with it the norming constants; `K_ptr` declares the
output capacity `Kcap` on entry and receives the detected count on return;
when more bound states are detected than `Kcap`, only `Kcap` many are
stored, a warning goes to the diagnostics sink and the call still
succeeds.  Buffers of skipped computations are returned unchanged. -/
def fnft_nsev (ker : NumericKernels) (D : ℕ) (q : List QC) (T : ℚ × ℚ)
    (contspec : Option (List QC)) (XI : ℚ × ℚ) (Kcap : ℕ)
    (bound_states : Option (List QC)) (normconsts_or_residues : Option (List QC))
    (kappa : ℤ) (opts : Option NsevOpts) : Except FnftError NsevResult :=
  let o := opts.getD fnft_nsev_default_opts
  if D < 2 ∨ Nat.land D (D - 1) ≠ 0 then .error .InvalidInput
  else if T.1 ≥ T.2 then .error .InvalidInput
  else if XI.1 ≥ XI.2 then .error .InvalidInput
  else if kappa ≠ 1 ∧ kappa ≠ -1 then .error .InvalidInput
  else
    let cs := contspec.map (fun _ => ker.contspecEval q o.contspec_type)
    match bound_states with
    | none =>
        .ok { contspec := cs, K := Kcap, bound_states := none,
              normconsts_or_residues := normconsts_or_residues,
              capacity_warning := false }
    | some bsbuf =>
        let detected := nsevLocate ker o q (bsbuf.take Kcap)
        let Kout := min detected.length Kcap
        let ncout := normconsts_or_residues.map (fun buf =>
          writeInto buf (ker.normconstCompute q (detected.take Kout) o.discspec_type) Kcap)
        .ok { contspec := cs, K := Kout,
              bound_states := some (writeInto bsbuf detected Kcap),
              normconsts_or_residues := ncout,
              capacity_warning := decide (Kcap < detected.length) }

/-- The number of detected bound-state candidates of a `fnft_nsev` call
(before truncation to the declared capacity), as a standalone definition so
that theorems can refer to it. -/
def nsevDetected (ker : NumericKernels) (q : List QC) (Kcap : ℕ)
    (bsbuf : List QC) (opts : Option NsevOpts) : List QC :=
  nsevLocate ker (opts.getD fnft_nsev_default_opts) q (bsbuf.take Kcap)

/-- The rejection causes of `mexFunction` in the MEX binding file: the four
eager input-validation messages (lines 79–86 of the binding), a bad option
string, and a failure propagated from `fnft_nsev`. -/
inductive MexReject where
  | BadQ
  | BadT
  | BadXI
  | BadKappa
  | BadOption
  | NsevFailed
deriving DecidableEq, Repr

/-- The eager input validation of `mexFunction` (binding file, lines
79–86), in source order: `D<2 || (D & (D-1)) != 0`, then `T[0] >= T[1]`,
then `XI[0] >= XI[1]`, then `kappa != +1 && kappa != -1`.  Each failing
check aborts via `mexErrMsgTxt` before any allocation or computation. -/
def mexValidateInputs (D : ℕ) (T XI : ℚ × ℚ) (kappa : ℤ) : Except MexReject Unit :=
  if D < 2 ∨ Nat.land D (D - 1) ≠ 0 then .error .BadQ
  else if T.1 ≥ T.2 then .error .BadT
  else if XI.1 ≥ XI.2 then .error .BadXI
  else if kappa ≠ 1 ∧ kappa ≠ -1 then .error .BadKappa
  else .ok ()

/-- The three skip flags of `mexFunction`. -/
structure MexFlags where
  skip_cs : Bool
  skip_bs : Bool
  skip_nc : Bool
deriving DecidableEq, Repr

/-- One step of the option-string loop of `mexFunction` as far as the skip
flags are concerned (binding file, lines 194–207): `"skip_cs"` sets
`skip_contspec_flag`; `"skip_bs"` sets `skip_bound_states_flag` AND
`skip_normconsts_flag` (since bound states are needed to compute norming
constants); `"skip_nc"` sets `skip_normconsts_flag`; other strings leave
the flags unchanged. -/
def mexFlagsStep (f : MexFlags) (s : String) : MexFlags :=
  if s = "skip_cs" then { f with skip_cs := true }
  else if s = "skip_bs" then { f with skip_bs := true, skip_nc := true }
  else if s = "skip_nc" then { f with skip_nc := true }
  else f

/-- The skip flags of `mexFunction` after option parsing.  The initial
values come from the output-count check at the top of `mexFunction`:
`nlhs < 2` pre-sets `skip_bound_states_flag` and `nlhs < 3` pre-sets
`skip_normconsts_flag`. -/
def mexSkipFlags (nlhs : ℕ) (args : List String) : MexFlags :=
  args.foldl mexFlagsStep ⟨false, decide (nlhs < 2), decide (nlhs < 3)⟩

/-- The MEX entry point `mexFunction` of the binding file, reduced to the
behavior the checked properties talk about: eager validation of the four
leading inputs, skip-flag resolution, allocation of the output buffers only
for non-skipped computations, and the call to `fnft_nsev` with default
options.  Returns the three caller-visible output arrays.  (The binding
sets the declared bound-state capacity to `fnft_nsev_max_K(D, opts)`, whose
source is not provided; it is modelled by the binding's initial choice
`K = D`.) -/
def mexFunction (ker : NumericKernels) (nlhs : ℕ) (q : List QC) (T XI : ℚ × ℚ)
    (kappa : ℤ) (args : List String) :
    Except MexReject (Option (List QC) × Option (List QC) × Option (List QC)) :=
  let D := q.length
  match mexValidateInputs D T XI kappa with
  | .error e => .error e
  | .ok _ =>
      let f := mexSkipFlags nlhs args
      let zeroBuf : List QC := List.replicate D ⟨0, 0⟩
      let csbuf := if f.skip_cs then none else some zeroBuf
      let bsbuf := if f.skip_bs then none else some zeroBuf
      let ncbuf := if f.skip_nc then none else some zeroBuf
      match fnft_nsev ker D q T csbuf XI D bsbuf ncbuf kappa
          (some fnft_nsev_default_opts) with
      | .error _ => .error .NsevFailed
      | .ok res => .ok (res.contspec, res.bound_states, res.normconsts_or_residues)

/-- A concrete instantiation of the black-box numerical kernels, used to
evaluate the orchestrator on concrete inputs. -/
def trivKer : NumericKernels where
  contspecEval := fun q _ => q
  fastEigen := fun q => q
  newton := fun _ _ guesses => guesses
  normconstCompute := fun _ bs _ => bs

/-- A sample discretization-degree table used to instantiate C3 on concrete
inputs: code 2 is a recognized scheme of per-sample degree 3, everything
else is unrecognized. -/
def sampleDegTable : ℕ → Option ℕ := fun n => if n = 2 then some 3 else none

/-- A sample elementary transfer-matrix coefficient function used to
instantiate C3 on concrete inputs. -/
def sampleElem : QC → QC → ℕ → ℕ → QC := fun qn rn _ i => ⟨qn.re + i, rn.im⟩

theorem QC.dist2_comm (a b : QC) : QC.dist2 a b = QC.dist2 b a := by
  unfold QC.dist2 QC.sub QC.normSq
  ring

theorem land_eq_hand (a b : ℕ) : Nat.land a b = a &&& b := rfl

theorem pow_two_of_land_pred_eq_zero :
    ∀ D : ℕ, 1 ≤ D → Nat.land D (D - 1) = 0 → ∃ k, D = 2 ^ k := by
  intro D
  induction D using Nat.strong_induction_on with
  | _ D ih =>
    intro hD h
    rcases Nat.even_or_odd D with hE | hO
    · obtain ⟨m, hm⟩ := hE
      have hDm : D = 2 * m := by omega
      have hm1 : 1 ≤ m := by omega
      have hland : Nat.land m (m - 1) = 0 := by
        apply Nat.eq_of_testBit_eq
        intro i
        rw [Nat.zero_testBit, land_eq_hand, Nat.testBit_land]
        have hbit : Nat.testBit (Nat.land D (D - 1)) (i + 1) = false := by
          rw [h]; exact Nat.zero_testBit _
        rw [land_eq_hand, Nat.testBit_land, Nat.testBit_succ, Nat.testBit_succ] at hbit
        have e1 : D / 2 = m := by omega
        have e2 : (D - 1) / 2 = m - 1 := by omega
        rw [e1, e2] at hbit
        exact hbit
      obtain ⟨k, hk⟩ := ih m (by omega) hm1 hland
      exact ⟨k + 1, by rw [pow_succ]; omega⟩
    · obtain ⟨m, hm⟩ := hO
      rcases Nat.eq_zero_or_pos m with hm0 | hm1
      · exact ⟨0, by omega⟩
      · exfalso
        have hex : ∃ i, Nat.testBit m i = true := by
          by_contra hno
          push_neg at hno
          have : m = 0 := by
            apply Nat.eq_of_testBit_eq
            intro i
            rw [Nat.zero_testBit]
            simpa using hno i
          omega
        obtain ⟨i, hi⟩ := hex
        have hbit : Nat.testBit (Nat.land D (D - 1)) (i + 1) = false := by
          rw [h]; exact Nat.zero_testBit _
        rw [land_eq_hand, Nat.testBit_land, Nat.testBit_succ, Nat.testBit_succ] at hbit
        have e1 : D / 2 = m := by omega
        have e2 : (D - 1) / 2 = m := by omega
        rw [e1, e2, hi] at hbit
        simp at hbit

theorem not_pow_two_three : ¬ ∃ k : ℕ, 3 = 2 ^ k := by
  rintro ⟨k, hk⟩
  rcases Nat.lt_or_ge k 2 with hk2 | hk2
  · interval_cases k <;> norm_num at hk
  · have h4 : 2 ^ 2 ≤ 2 ^ k := Nat.pow_le_pow_right (by norm_num) hk2
    omega

/-- C2: for every input where D is not a power of two or D < 2, or
T[0] ≥ T[1], or XI[0] ≥ XI[1], or kappa ∉ {+1,-1}, the transform entry
point rejects the call with an invalid-input error raised by the eager
validation block (binding file, lines 79–86), so no numeric computation
executes and no output buffer is written (the entry point produces no
outputs at all). -/
theorem C2_invalid_inputs_rejected (ker : NumericKernels) (nlhs : ℕ)
    (q : List QC) (T XI : ℚ × ℚ) (kappa : ℤ) (args : List String)
    (h : q.length < 2 ∨ (¬ ∃ k, q.length = 2 ^ k) ∨ T.1 ≥ T.2 ∨ XI.1 ≥ XI.2 ∨
      (kappa ≠ 1 ∧ kappa ≠ -1)) :
    ∃ e, mexValidateInputs q.length T XI kappa = Except.error e ∧
      e ≠ MexReject.BadOption ∧ e ≠ MexReject.NsevFailed ∧
      mexFunction ker nlhs q T XI kappa args = Except.error e := by
  rcases hv : mexValidateInputs q.length T XI kappa with e | u
  · have he : e = .BadQ ∨ e = .BadT ∨ e = .BadXI ∨ e = .BadKappa := by
      unfold mexValidateInputs at hv
      split_ifs at hv <;> simp_all
    refine ⟨e, rfl, ?_, ?_, ?_⟩
    · rcases he with h' | h' | h' | h' <;> subst h' <;> decide
    · rcases he with h' | h' | h' | h' <;> subst h' <;> decide
    · simp only [mexFunction]
      rw [hv]
  · exfalso
    unfold mexValidateInputs at hv
    split_ifs at hv with h1 h2 h3 h4
    push_neg at h1 h2 h3
    rcases h with hD | hP | hT | hXI | hK
    · omega
    · exact hP (pow_two_of_land_pred_eq_zero q.length (by omega) (by omega))
    · exact absurd hT (by exact not_le.mpr h2)
    · exact absurd hXI (by exact not_le.mpr h3)
    · exact h4 hK

/-- Witness for C2 at the concrete invalid input D = 3 (q of length three,
valid T, XI and kappa): the entry point rejects with the invalid-input
error of the D-validation. -/
theorem C2_invalid_inputs_rejected_witness :
    ∃ e, mexValidateInputs (3 : ℕ) ((0 : ℚ), (1 : ℚ)) ((0 : ℚ), (1 : ℚ)) 1 =
        Except.error e ∧
      e ≠ MexReject.BadOption ∧ e ≠ MexReject.NsevFailed ∧
      mexFunction trivKer 1 [⟨0, 0⟩, ⟨0, 0⟩, ⟨0, 0⟩] (0, 1) (0, 1) 1 [] =
        Except.error e :=
  C2_invalid_inputs_rejected trivKer 1 [⟨0, 0⟩, ⟨0, 0⟩, ⟨0, 0⟩] (0, 1) (0, 1) 1 []
    (Or.inr (Or.inl (by simpa using not_pow_two_three)))

theorem filterGo_eq_filter (box : BoundingBox) (l : List QC) :
    filterGo box l = l.filter (inBox box) := by
  induction l with
  | nil => rfl
  | cons v rest ih =>
      unfold filterGo
      by_cases hv : inBox box v <;> simp [hv, ih, List.filter_cons]

theorem filterGo2_eq_filter (box : BoundingBox) (l : List (QC × QC)) :
    filterGo2 box l = l.filter (fun p => inBox box p.1) := by
  induction l with
  | nil => rfl
  | cons p rest ih =>
      unfold filterGo2
      by_cases hp : inBox box p.1 <;> simp [hp, ih, List.filter_cons]

theorem map_fst_filter_zip (box : BoundingBox) :
    ∀ (l1 l2 : List QC), l1.length = l2.length →
      ((l1.zip l2).filter (fun p => inBox box p.1)).map Prod.fst =
        l1.filter (inBox box) := by
  intro l1
  induction l1 with
  | nil => intro l2 _; simp
  | cons a l1 ih =>
      intro l2 hlen
      cases l2 with
      | nil => simp at hlen
      | cons b l2 =>
          simp only [List.zip_cons_cons, List.filter_cons]
          by_cases ha : inBox box a <;>
            simp [ha, ih l2 (by simpa using hlen)]

theorem mergeGo_far_of_mem (tol2 : ℚ) :
    ∀ (l kept : List QC) (x : QC), x ∈ mergeGo tol2 kept l →
      ∀ u ∈ kept, tol2 ≤ QC.dist2 x u := by
  intro l
  induction l with
  | nil => intro kept x hx; simp [mergeGo] at hx
  | cons v rest ih =>
      intro kept x hx u hu
      unfold mergeGo at hx
      by_cases hc : closeToSome tol2 kept v
      · rw [if_pos hc] at hx
        exact ih kept x hx u hu
      · rw [if_neg hc] at hx
        rcases List.mem_cons.mp hx with hxv | hx'
        · subst hxv
          have : ∀ w ∈ kept, ¬ (QC.dist2 x w < tol2) := by
            intro w hw hlt
            exact hc (by simp [closeToSome, List.any_eq_true]; exact ⟨w, hw, hlt⟩)
          exact le_of_not_lt (this u hu)
        · exact ih (v :: kept) x hx' u (List.mem_cons_of_mem v hu)

theorem mergeGo_pairwise (tol2 : ℚ) :
    ∀ (l kept : List QC),
      List.Pairwise (fun a b => tol2 ≤ QC.dist2 a b) (mergeGo tol2 kept l) := by
  intro l
  induction l with
  | nil => intro kept; simp [mergeGo]
  | cons v rest ih =>
      intro kept
      unfold mergeGo
      by_cases hc : closeToSome tol2 kept v
      · rw [if_pos hc]; exact ih kept
      · rw [if_neg hc]
        refine List.pairwise_cons.mpr ⟨?_, ih (v :: kept)⟩
        intro b hb
        have := mergeGo_far_of_mem tol2 rest (v :: kept) b hb v (List.mem_cons_self v _)
        rw [QC.dist2_comm] at this
        exact this

theorem mergeGo_fixed (tol2 : ℚ) :
    ∀ (l kept : List QC),
      (∀ x ∈ l, ∀ u ∈ kept, tol2 ≤ QC.dist2 x u) →
      List.Pairwise (fun a b => tol2 ≤ QC.dist2 a b) l →
      mergeGo tol2 kept l = l := by
  intro l
  induction l with
  | nil => intro kept _ _; rfl
  | cons v rest ih =>
      intro kept hfar hpw
      have hc : closeToSome tol2 kept v = false := by
        rw [← Bool.not_eq_true]
        intro hc
        rcases (List.any_eq_true).mp hc with ⟨u, hu, hlt⟩
        exact absurd (hfar v (List.mem_cons_self v _) u hu) (by simpa using hlt)
      unfold mergeGo
      rw [if_neg (by simp [hc])]
      congr 1
      rcases List.pairwise_cons.mp hpw with ⟨hhead, htail⟩
      apply ih (v :: kept)
      · intro x hx u hu
        rcases List.mem_cons.mp hu with huv | hu'
        · subst huv
          rw [QC.dist2_comm]
          exact hhead x hx
        · exact hfar x (List.mem_cons_of_mem v hx) u hu'
      · exact htail

/-- C4: applying the bounding-box filter `fnft__misc_filter` twice with the
same bounding box yields the same surviving list (and hence the same count)
as applying it once — feeding both outputs (survivors and the rearranged
companion array) back in; and applying `fnft__misc_merge` twice with the
same tolerance yields the same result as applying it once. -/
theorem C4_filter_merge_idempotent (box : BoundingBox) (vals : List QC)
    (rearrange_as_well : Option (List QC)) (tol2 : ℚ) (mvals : List QC) :
    fnft__misc_filter (fnft__misc_filter vals rearrange_as_well box).1
        (fnft__misc_filter vals rearrange_as_well box).2 box =
      fnft__misc_filter vals rearrange_as_well box ∧
    fnft__misc_merge tol2 (fnft__misc_merge tol2 mvals) = fnft__misc_merge tol2 mvals := by
  constructor
  · cases rearrange_as_well with
    | none =>
        simp only [fnft__misc_filter, filterGo_eq_filter]
        rw [List.filter_filter]
        simp
    | some rr =>
        simp only [fnft__misc_filter, filterGo2_eq_filter]
        rw [List.zip_map' Prod.fst Prod.snd]
        simp only [List.filter_map]
        have hcomp : ((fun (p : QC × QC) => inBox box p.1) ∘ fun a => (a.1, a.2)) =
            (fun (p : QC × QC) => inBox box p.1) := rfl
        rw [hcomp, List.filter_filter]
        simp
  · unfold fnft__misc_merge
    apply mergeGo_fixed
    · intro x _ u hu
      simp at hu
    · exact mergeGo_pairwise tol2 mvals []

/-- C5: after `fnft__misc_merge` returns, any two distinct surviving
entries are at distance at least the merge tolerance from each other
(squared distances: `tol2` is the square of the C tolerance `tol`, and
`tol² ≤ |a-b|²` is equivalent to `tol ≤ |a-b|` for `tol ≥ 0`), so the bound
states reported by the pipeline after this post-processing step are
pairwise separated by at least the merge tolerance. -/
theorem C5_merge_pairwise_separated (tol2 : ℚ) (vals : List QC) :
    List.Pairwise (fun a b => tol2 ≤ QC.dist2 a b ∧ tol2 ≤ QC.dist2 b a)
      (fnft__misc_merge tol2 vals) := by
  have h := mergeGo_pairwise tol2 vals []
  exact h.imp (fun {a b} hab => ⟨hab, by rw [QC.dist2_comm]; exact hab⟩)

/-- C10: `fnft__misc_filter` keeps exactly the values inside the bounding
box, moves them to the front preserving their relative order (the survivor
list is the sublist of in-box values in original order), reports the
survivor count, and applies the same rearrangement to `rearrange_as_well`,
preserving the index pairing between the two arrays. -/
theorem C10_filter_characterization (box : BoundingBox) (vals rr : List QC)
    (hlen : rr.length = vals.length) :
    (fnft__misc_filter vals (some rr) box).1 = vals.filter (inBox box) ∧
    (fnft__misc_filter vals (some rr) box).1.length = vals.countP (inBox box) ∧
    (∀ v, v ∈ (fnft__misc_filter vals (some rr) box).1 ↔
      v ∈ vals ∧ box.b0 ≤ v.re ∧ v.re ≤ box.b1 ∧ box.b2 ≤ v.im ∧ v.im ≤ box.b3) ∧
    ∃ rrout, (fnft__misc_filter vals (some rr) box).2 = some rrout ∧
      rrout.length = (fnft__misc_filter vals (some rr) box).1.length ∧
      (fnft__misc_filter vals (some rr) box).1.zip rrout =
        (vals.zip rr).filter (fun p => inBox box p.1) := by
  have hfst : (fnft__misc_filter vals (some rr) box).1 = vals.filter (inBox box) := by
    simp only [fnft__misc_filter, filterGo2_eq_filter]
    exact map_fst_filter_zip box vals rr hlen.symm
  refine ⟨hfst, ?_, ?_, ?_⟩
  · rw [hfst, List.countP_eq_length_filter]
  · intro v
    rw [hfst, List.mem_filter]
    unfold inBox
    constructor
    · rintro ⟨hv, hbox⟩
      simp only [Bool.and_eq_true, decide_eq_true_eq] at hbox
      exact ⟨hv, hbox.1.1.1, hbox.1.1.2, hbox.1.2, hbox.2⟩
    · rintro ⟨hv, h1, h2, h3, h4⟩
      refine ⟨hv, ?_⟩
      simp only [Bool.and_eq_true, decide_eq_true_eq]
      exact ⟨⟨⟨h1, h2⟩, h3⟩, h4⟩
  · refine ⟨(filterGo2 box (vals.zip rr)).map Prod.snd, rfl, ?_, ?_⟩
    · simp only [fnft__misc_filter]
      simp
    · simp only [fnft__misc_filter, filterGo2_eq_filter]
      rw [List.zip_map' Prod.fst Prod.snd]
      simp

/-- Witness for C10 at a concrete input: three values, one outside the
bounding box, with a companion array rearranged in lockstep. -/
theorem C10_filter_characterization_witness :
    (fnft__misc_filter [⟨0, 0⟩, ⟨5, 0⟩, ⟨1, 1⟩] (some [⟨9, 0⟩, ⟨8, 0⟩, ⟨7, 0⟩])
        ⟨0, 2, 0, 2⟩).1 = [⟨0, 0⟩, ⟨1, 1⟩] ∧
    (fnft__misc_filter [⟨0, 0⟩, ⟨5, 0⟩, ⟨1, 1⟩] (some [⟨9, 0⟩, ⟨8, 0⟩, ⟨7, 0⟩])
        ⟨0, 2, 0, 2⟩).2 = some [⟨9, 0⟩, ⟨7, 0⟩] := by
  have h := C10_filter_characterization ⟨0, 2, 0, 2⟩ [⟨0, 0⟩, ⟨5, 0⟩, ⟨1, 1⟩]
    [⟨9, 0⟩, ⟨8, 0⟩, ⟨7, 0⟩] (by decide)
  refine ⟨?_, ?_⟩
  · rw [h.1]; decide
  · rcases h.2.2.2 with ⟨rrout, hout, _, _⟩
    have hcomp : (fnft__misc_filter [⟨0, 0⟩, ⟨5, 0⟩, ⟨1, 1⟩]
        (some [⟨9, 0⟩, ⟨8, 0⟩, ⟨7, 0⟩]) ⟨0, 2, 0, 2⟩).2 = some [⟨9, 0⟩, ⟨7, 0⟩] := by
      decide
    exact hcomp

theorem writeInto_length :
    ∀ (buf xs : List QC) (cap : ℕ), (writeInto buf xs cap).length = buf.length := by
  intro buf
  induction buf with
  | nil => intro xs cap; cases cap <;> cases xs <;> rfl
  | cons b buf ih =>
      intro xs cap
      cases cap with
      | zero => cases xs <;> simp [writeInto]
      | succ cap =>
          cases xs with
          | nil => simp [writeInto]
          | cons x xs => simp [writeInto, ih]

theorem writeInto_get_of_cap_le :
    ∀ (buf xs : List QC) (cap i : ℕ), cap ≤ i →
      (writeInto buf xs cap).get? i = buf.get? i := by
  intro buf
  induction buf with
  | nil => intro xs cap i _; cases cap <;> cases xs <;> rfl
  | cons b buf ih =>
      intro xs cap i hle
      cases cap with
      | zero => cases xs <;> simp [writeInto]
      | succ cap =>
          cases xs with
          | nil => simp [writeInto]
          | cons x xs =>
              cases i with
              | zero => omega
              | succ i => simpa [writeInto] using ih xs cap i (by omega)

theorem writeInto_get_of_lt :
    ∀ (buf xs : List QC) (cap i : ℕ), i < cap → i < xs.length → i < buf.length →
      (writeInto buf xs cap).get? i = xs.get? i := by
  intro buf
  induction buf with
  | nil => intro xs cap i _ _ h; simp at h
  | cons b buf ih =>
      intro xs cap i hcap hxs hbuf
      cases cap with
      | zero => omega
      | succ cap =>
          cases xs with
          | nil => simp at hxs
          | cons x xs =>
              cases i with
              | zero => simp [writeInto]
              | succ i =>
                  simpa [writeInto] using
                    ih xs cap i (by omega) (by simpa using hxs) (by simpa using hbuf)

/-- C1: for every `fnft_nsev` call with a non-null `bound_states` buffer
that passes input validation, the bound-state count written back through
`K_ptr` never exceeds the capacity `Kcap` declared in `*K_ptr` on entry;
when more bound states are detected than `Kcap`, exactly `Kcap` many are
stored, a warning is emitted through the diagnostics sink, the call still
succeeds, and no element of `bound_states` or `normconsts_or_residues` at
or beyond index `Kcap` is overwritten. -/
theorem C1_capacity_truncation (ker : NumericKernels) (D : ℕ) (q : List QC)
    (T : ℚ × ℚ) (cs : Option (List QC)) (XI : ℚ × ℚ) (Kcap : ℕ)
    (bsbuf : List QC) (nc : Option (List QC)) (kappa : ℤ) (opts : Option NsevOpts)
    (hD : 2 ≤ D) (hland : Nat.land D (D - 1) = 0) (hT : T.1 < T.2)
    (hXI : XI.1 < XI.2) (hkappa : kappa = 1 ∨ kappa = -1) :
    ∃ res, fnft_nsev ker D q T cs XI Kcap (some bsbuf) nc kappa opts =
        Except.ok res ∧
      res.K = min (nsevDetected ker q Kcap bsbuf opts).length Kcap ∧
      res.K ≤ Kcap ∧
      (Kcap < (nsevDetected ker q Kcap bsbuf opts).length →
        res.K = Kcap ∧ res.capacity_warning = true) ∧
      (∃ bsout, res.bound_states = some bsout ∧ bsout.length = bsbuf.length ∧
        (∀ i, Kcap ≤ i → bsout.get? i = bsbuf.get? i) ∧
        (∀ i, i < Kcap → i < (nsevDetected ker q Kcap bsbuf opts).length →
          i < bsbuf.length →
          bsout.get? i = (nsevDetected ker q Kcap bsbuf opts).get? i)) ∧
      (∀ ncbuf, nc = some ncbuf → ∃ ncout,
        res.normconsts_or_residues = some ncout ∧ ncout.length = ncbuf.length ∧
        ∀ i, Kcap ≤ i → ncout.get? i = ncbuf.get? i) := by
  have h1 : ¬ (D < 2 ∨ Nat.land D (D - 1) ≠ 0) := by push_neg; exact ⟨by omega, hland⟩
  have h2 : ¬ (T.1 ≥ T.2) := not_le.mpr hT
  have h3 : ¬ (XI.1 ≥ XI.2) := not_le.mpr hXI
  have h4 : ¬ (kappa ≠ 1 ∧ kappa ≠ -1) := by rcases hkappa with h | h <;> simp [h]
  have hcall : fnft_nsev ker D q T cs XI Kcap (some bsbuf) nc kappa opts =
      Except.ok
        { contspec := cs.map (fun _ =>
            ker.contspecEval q (opts.getD fnft_nsev_default_opts).contspec_type),
          K := min (nsevDetected ker q Kcap bsbuf opts).length Kcap,
          bound_states := some (writeInto bsbuf (nsevDetected ker q Kcap bsbuf opts) Kcap),
          normconsts_or_residues := nc.map (fun buf =>
            writeInto buf
              (ker.normconstCompute q
                ((nsevDetected ker q Kcap bsbuf opts).take
                  (min (nsevDetected ker q Kcap bsbuf opts).length Kcap))
                (opts.getD fnft_nsev_default_opts).discspec_type) Kcap),
          capacity_warning := decide (Kcap < (nsevDetected ker q Kcap bsbuf opts).length) } := by
    simp only [fnft_nsev, nsevDetected]
    rw [if_neg h1, if_neg h2, if_neg h3, if_neg h4]
  refine ⟨_, hcall, rfl, Nat.min_le_right _ _, ?_, ?_, ?_⟩
  · intro hover
    constructor
    · simp [Nat.min_eq_right (le_of_lt hover)]
    · simpa using hover
  · refine ⟨_, rfl, writeInto_length _ _ _, ?_, ?_⟩
    · intro i hi
      exact writeInto_get_of_cap_le _ _ _ _ hi
    · intro i hi1 hi2 hi3
      exact writeInto_get_of_lt _ _ _ _ hi1 hi2 hi3
  · intro ncbuf hnc
    subst hnc
    refine ⟨_, rfl, writeInto_length _ _ _, ?_⟩
    intro i hi
    exact writeInto_get_of_cap_le _ _ _ _ hi

/-- Witness for C1 at a concrete input: D = 4, capacity 2 declared while
the localization produces 4 candidates (trivKer's Newton step returns the
fast-eigenvalue guesses of the subsampled signal refined into a list of
length 4); the count written back is the declared capacity. -/
theorem C1_capacity_truncation_witness :
    ∃ res, fnft_nsev trivKer 4 [⟨1, 0⟩, ⟨2, 0⟩, ⟨3, 0⟩, ⟨4, 0⟩] (0, 1) none (0, 1) 1
        (some [⟨9, 9⟩, ⟨8, 8⟩]) (some [⟨7, 7⟩, ⟨6, 6⟩]) 1 none = Except.ok res ∧
      res.K = min (nsevDetected trivKer [⟨1, 0⟩, ⟨2, 0⟩, ⟨3, 0⟩, ⟨4, 0⟩] 1
        [⟨9, 9⟩, ⟨8, 8⟩] none).length 1 ∧
      res.K ≤ 1 := by
  have h := C1_capacity_truncation trivKer 4 [⟨1, 0⟩, ⟨2, 0⟩, ⟨3, 0⟩, ⟨4, 0⟩] (0, 1)
    none (0, 1) 1 [⟨9, 9⟩, ⟨8, 8⟩] (some [⟨7, 7⟩, ⟨6, 6⟩]) 1 none
    (by norm_num) (by decide) (by norm_num) (by norm_num) (Or.inl rfl)
  rcases h with ⟨res, hcall, hK, hle, _⟩
  exact ⟨res, hcall, hK, hle⟩

theorem mexFlagsStep_mono (f : MexFlags) (s : String) :
    (f.skip_bs = true → (mexFlagsStep f s).skip_bs = true) ∧
    (f.skip_nc = true → (mexFlagsStep f s).skip_nc = true) := by
  unfold mexFlagsStep
  split_ifs <;> simp_all

theorem mexFlags_foldl_mono :
    ∀ (args : List String) (f : MexFlags),
      (f.skip_bs = true → (args.foldl mexFlagsStep f).skip_bs = true) ∧
      (f.skip_nc = true → (args.foldl mexFlagsStep f).skip_nc = true) := by
  intro args
  induction args with
  | nil => intro f; exact ⟨id, id⟩
  | cons s args ih =>
      intro f
      constructor
      · intro h
        exact (ih (mexFlagsStep f s)).1 ((mexFlagsStep_mono f s).1 h)
      · intro h
        exact (ih (mexFlagsStep f s)).2 ((mexFlagsStep_mono f s).2 h)

theorem mexSkipFlags_skip_bs :
    ∀ (args : List String) (f : MexFlags), "skip_bs" ∈ args →
      (args.foldl mexFlagsStep f).skip_bs = true ∧
      (args.foldl mexFlagsStep f).skip_nc = true := by
  intro args
  induction args with
  | nil => intro f h; simp at h
  | cons s args ih =>
      intro f hmem
      rcases List.mem_cons.mp hmem with hs | hs
      · subst hs
        have hstep : (mexFlagsStep f "skip_bs").skip_bs = true ∧
            (mexFlagsStep f "skip_bs").skip_nc = true := by
          unfold mexFlagsStep
          rw [if_neg (by decide), if_pos rfl]
          exact ⟨rfl, rfl⟩
        exact ⟨(mexFlags_foldl_mono args _).1 hstep.1,
               (mexFlags_foldl_mono args _).2 hstep.2⟩
      · exact ih (mexFlagsStep f s) hs

/-- C6: passing `contspec == NULL` to `fnft_nsev` skips the
continuous-spectrum computation while the rest of the call proceeds
identically (same count, bound states and norming constants as the same
call with a buffer); passing `bound_states == NULL` skips the
discrete-spectrum computation and with it the norming-constant/residue
computation, leaving the caller's `normconsts_or_residues` buffer
unchanged; and in the MEX binding the `"skip_bs"` option implies the
norming constants are skipped as well. -/
theorem C6_null_skips (ker : NumericKernels) (D : ℕ) (q : List QC) (T : ℚ × ℚ)
    (csbuf : List QC) (XI : ℚ × ℚ) (Kcap : ℕ) (bs : Option (List QC))
    (nc : Option (List QC)) (kappa : ℤ) (opts : Option NsevOpts)
    (hD : 2 ≤ D) (hland : Nat.land D (D - 1) = 0) (hT : T.1 < T.2)
    (hXI : XI.1 < XI.2) (hkappa : kappa = 1 ∨ kappa = -1) :
    (∃ res res',
      fnft_nsev ker D q T none XI Kcap bs nc kappa opts = Except.ok res ∧
      fnft_nsev ker D q T (some csbuf) XI Kcap bs nc kappa opts = Except.ok res' ∧
      res.contspec = none ∧
      res.K = res'.K ∧ res.bound_states = res'.bound_states ∧
      res.normconsts_or_residues = res'.normconsts_or_residues ∧
      res.capacity_warning = res'.capacity_warning) ∧
    (∃ res,
      fnft_nsev ker D q T (some csbuf) XI Kcap none nc kappa opts = Except.ok res ∧
      res.bound_states = none ∧ res.normconsts_or_residues = nc ∧ res.K = Kcap) ∧
    (∀ (nlhs : ℕ) (args : List String), "skip_bs" ∈ args →
      (mexSkipFlags nlhs args).skip_bs = true ∧
      (mexSkipFlags nlhs args).skip_nc = true) := by
  have h1 : ¬ (D < 2 ∨ Nat.land D (D - 1) ≠ 0) := by push_neg; exact ⟨by omega, hland⟩
  have h2 : ¬ (T.1 ≥ T.2) := not_le.mpr hT
  have h3 : ¬ (XI.1 ≥ XI.2) := not_le.mpr hXI
  have h4 : ¬ (kappa ≠ 1 ∧ kappa ≠ -1) := by rcases hkappa with h | h <;> simp [h]
  refine ⟨?_, ?_, ?_⟩
  · cases bs with
    | none =>
        have hA : fnft_nsev ker D q T none XI Kcap none nc kappa opts =
            Except.ok { contspec := none, K := Kcap, bound_states := none,
                        normconsts_or_residues := nc, capacity_warning := false } := by
          simp only [fnft_nsev]
          rw [if_neg h1, if_neg h2, if_neg h3, if_neg h4]
          rfl
        have hB : fnft_nsev ker D q T (some csbuf) XI Kcap none nc kappa opts =
            Except.ok { contspec := some (ker.contspecEval q
                          (opts.getD fnft_nsev_default_opts).contspec_type),
                        K := Kcap, bound_states := none,
                        normconsts_or_residues := nc, capacity_warning := false } := by
          simp only [fnft_nsev]
          rw [if_neg h1, if_neg h2, if_neg h3, if_neg h4]
          rfl
        exact ⟨_, _, hA, hB, rfl, rfl, rfl, rfl, rfl⟩
    | some bsbuf =>
        have hA : fnft_nsev ker D q T none XI Kcap (some bsbuf) nc kappa opts =
            Except.ok { contspec := none,
                        K := min (nsevDetected ker q Kcap bsbuf opts).length Kcap,
                        bound_states := some (writeInto bsbuf
                          (nsevDetected ker q Kcap bsbuf opts) Kcap),
                        normconsts_or_residues := nc.map (fun buf => writeInto buf
                          (ker.normconstCompute q
                            ((nsevDetected ker q Kcap bsbuf opts).take
                              (min (nsevDetected ker q Kcap bsbuf opts).length Kcap))
                            (opts.getD fnft_nsev_default_opts).discspec_type) Kcap),
                        capacity_warning :=
                          decide (Kcap < (nsevDetected ker q Kcap bsbuf opts).length) } := by
          simp only [fnft_nsev, nsevDetected]
          rw [if_neg h1, if_neg h2, if_neg h3, if_neg h4]
          rfl
        have hB : fnft_nsev ker D q T (some csbuf) XI Kcap (some bsbuf) nc kappa opts =
            Except.ok { contspec := some (ker.contspecEval q
                          (opts.getD fnft_nsev_default_opts).contspec_type),
                        K := min (nsevDetected ker q Kcap bsbuf opts).length Kcap,
                        bound_states := some (writeInto bsbuf
                          (nsevDetected ker q Kcap bsbuf opts) Kcap),
                        normconsts_or_residues := nc.map (fun buf => writeInto buf
                          (ker.normconstCompute q
                            ((nsevDetected ker q Kcap bsbuf opts).take
                              (min (nsevDetected ker q Kcap bsbuf opts).length Kcap))
                            (opts.getD fnft_nsev_default_opts).discspec_type) Kcap),
                        capacity_warning :=
                          decide (Kcap < (nsevDetected ker q Kcap bsbuf opts).length) } := by
          simp only [fnft_nsev, nsevDetected]
          rw [if_neg h1, if_neg h2, if_neg h3, if_neg h4]
          rfl
        exact ⟨_, _, hA, hB, rfl, rfl, rfl, rfl, rfl⟩
  · have hC : fnft_nsev ker D q T (some csbuf) XI Kcap none nc kappa opts =
        Except.ok { contspec := some (ker.contspecEval q
                      (opts.getD fnft_nsev_default_opts).contspec_type),
                    K := Kcap, bound_states := none,
                    normconsts_or_residues := nc, capacity_warning := false } := by
      simp only [fnft_nsev]
      rw [if_neg h1, if_neg h2, if_neg h3, if_neg h4]
      rfl
    exact ⟨_, hC, rfl, rfl, rfl⟩
  · intro nlhs args hmem
    exact mexSkipFlags_skip_bs args _ hmem

/-- Witness for C6 at a concrete input: D = 4 with and without buffers, and
a MEX argument list containing `"skip_bs"`. -/
theorem C6_null_skips_witness :
    (∃ res, fnft_nsev trivKer 4 [⟨1, 0⟩, ⟨2, 0⟩, ⟨3, 0⟩, ⟨4, 0⟩] (0, 1) (some [⟨0, 0⟩])
        (0, 1) 2 none (some [⟨5, 5⟩]) 1 none = Except.ok res ∧
      res.bound_states = none ∧ res.normconsts_or_residues = some [⟨5, 5⟩]) ∧
    (mexSkipFlags 3 ["quiet", "skip_bs"]).skip_nc = true := by
  have h := C6_null_skips trivKer 4 [⟨1, 0⟩, ⟨2, 0⟩, ⟨3, 0⟩, ⟨4, 0⟩] (0, 1) [⟨0, 0⟩]
    (0, 1) 2 none (some [⟨5, 5⟩]) 1 none
    (by norm_num) (by decide) (by norm_num) (by norm_num) (Or.inl rfl)
  rcases h.2.1 with ⟨res, hcall, hbs, hnc, _⟩
  exact ⟨⟨res, hcall, hbs, hnc⟩, (h.2.2 3 ["quiet", "skip_bs"] (by simp)).2⟩

/-- C9: `fnft_nsev_default_opts` returns the options record documented in
`fnft_nsev.h` — FULL bound-state filtering, SUBSAMPLE_AND_REFINE
localization, 10 Newton iterations, norming-constant discrete spectrum,
reflection-coefficient continuous spectrum, normalization enabled and the
2SPLIT4B discretization — and passing `opts == NULL` to `fnft_nsev` behaves
identically to passing this default record. -/
theorem C9_default_opts :
    fnft_nsev_default_opts.bound_state_filtering = BsFilt.FULL ∧
    fnft_nsev_default_opts.bound_state_localization = BsLoc.SUBSAMPLE_AND_REFINE ∧
    fnft_nsev_default_opts.niter = 10 ∧
    fnft_nsev_default_opts.discspec_type = DsType.NORMING_CONSTANTS ∧
    fnft_nsev_default_opts.contspec_type = CsType.REFLECTION_COEFFICIENT ∧
    fnft_nsev_default_opts.normalization_flag = 1 ∧
    fnft_nsev_default_opts.discretization = NseDiscretization.D2SPLIT4B ∧
    ∀ (ker : NumericKernels) (D : ℕ) (q : List QC) (T : ℚ × ℚ)
      (cs : Option (List QC)) (XI : ℚ × ℚ) (Kcap : ℕ) (bs : Option (List QC))
      (nc : Option (List QC)) (kappa : ℤ),
      fnft_nsev ker D q T cs XI Kcap bs nc kappa none =
        fnft_nsev ker D q T cs XI Kcap bs nc kappa (some fnft_nsev_default_opts) :=
  ⟨rfl, rfl, rfl, rfl, rfl, rfl, rfl, fun _ _ _ _ _ _ _ _ _ _ => rfl⟩

/-- C3: for every sample count `D` and recognized discretization, the
buffer-sizing query `fnft__akns_fscatter_numel` returns exactly
`4*D*(degree+1)`, which equals the number of coefficients the builder
`fnft__akns_fscatter` writes, and it returns `0` for an unrecognized
discretization (for which the builder fails). -/
theorem C3_numel_matches_builder (degTable : ℕ → Option ℕ)
    (elem : QC → QC → ℕ → ℕ → QC) (D : ℕ) (q r : ℕ → QC) (disc : ℕ) :
    (∀ d, degTable disc = some d →
      fnft__akns_fscatter_numel degTable D disc = 4 * D * (d + 1) ∧
      ∃ coeffs, fnft__akns_fscatter degTable elem D q r disc = Except.ok coeffs ∧
        coeffs.length = fnft__akns_fscatter_numel degTable D disc) ∧
    (degTable disc = none →
      fnft__akns_fscatter_numel degTable D disc = 0 ∧
      fnft__akns_fscatter degTable elem D q r disc = Except.error .InvalidScheme) := by
  constructor
  · intro d hd
    constructor
    · unfold fnft__akns_fscatter_numel
      rw [hd]
    · refine ⟨List.flatten ((List.range D).map
          (fun n => fscatterBlock elem d (q n) (r n))), ?_, ?_⟩
      · unfold fnft__akns_fscatter
        rw [hd]
      · unfold fnft__akns_fscatter_numel
        rw [hd]
        rw [List.length_flatten, List.map_map]
        have hlen : (List.length ∘ fun n => fscatterBlock elem d (q n) (r n)) =
            Function.const ℕ (4 * (d + 1)) := by
          funext n
          simp [fscatterBlock]
        rw [hlen, List.map_const, List.sum_replicate, List.length_range,
          smul_eq_mul]
        ring
  · intro hd
    constructor
    · unfold fnft__akns_fscatter_numel
      rw [hd]
    · unfold fnft__akns_fscatter
      rw [hd]

/-- Witness for C3 at a concrete input: D = 2 with recognized scheme 2
(degree 3) gives buffer length 32, matching the builder's output length,
and the unrecognized scheme 5 gives 0. -/
theorem C3_numel_matches_builder_witness :
    (fnft__akns_fscatter_numel sampleDegTable 2 2 = 4 * 2 * (3 + 1) ∧
      ∃ coeffs, fnft__akns_fscatter sampleDegTable sampleElem 2
          (fun _ => ⟨1, 0⟩) (fun _ => ⟨0, 1⟩) 2 = Except.ok coeffs ∧
        coeffs.length = fnft__akns_fscatter_numel sampleDegTable 2 2) ∧
    fnft__akns_fscatter_numel sampleDegTable 2 5 = 0 :=
  ⟨(C3_numel_matches_builder sampleDegTable sampleElem 2
      (fun _ => ⟨1, 0⟩) (fun _ => ⟨0, 1⟩) 2).1 3 (by decide),
   ((C3_numel_matches_builder sampleDegTable sampleElem 2
      (fun _ => ⟨1, 0⟩) (fun _ => ⟨0, 1⟩) 5).2 (by decide)).1⟩

theorem log2floorAux_two_pow :
    ∀ (fuel k : ℕ), 2 ^ k ≤ fuel → log2floorAux fuel (2 ^ k) = k := by
  intro fuel
  induction fuel with
  | zero =>
      intro k hk
      have : 0 < 2 ^ k := Nat.pos_pow_of_pos k (by norm_num)
      omega
  | succ fuel ih =>
      intro k hk
      cases k with
      | zero => simp [log2floorAux]
      | succ j =>
          have h2 : ¬ (2 ^ (j + 1) < 2) := by
            have : 2 ≤ 2 ^ (j + 1) := Nat.one_lt_two_pow_iff.mpr (by omega)
            omega
          have hdiv : 2 ^ (j + 1) / 2 = 2 ^ j := by
            rw [pow_succ]
            exact Nat.mul_div_cancel _ (by norm_num)
          have hfuel : 2 ^ j ≤ fuel := by
            have h1 : 1 ≤ 2 ^ j := Nat.one_le_two_pow
            have : 2 ^ (j + 1) = 2 * 2 ^ j := by rw [pow_succ]; ring
            omega
          simp only [log2floorAux, if_neg h2, hdiv]
          rw [ih j hfuel]

theorem log2floor_two_pow (k : ℕ) : log2floor (2 ^ k) = k :=
  log2floorAux_two_pow (2 ^ k) k le_rfl

/-- C7 (amended): for a signal of power-of-two length `D = 2^k ≥ 2`
processed with SUBSAMPLE_AND_REFINE, the pipeline first produces via
`fnft__misc_downsample` a decimated signal whose length `Dsub` satisfies
`2 ≤ Dsub ≤ D`, is a power of two and divides `D` (subsampling factor
`D/Dsub`), with `Dsub < D` whenever `D > 2` (for `D = 2` the contract
`Dsub ≥ 2` of `fnft__misc.h` forces `Dsub = D = 2`); it then runs the
FAST_EIGENVALUE search on the subsampled signal and finally the NEWTON
refinement on the full-resolution signal seeded by those coarse guesses. -/
theorem C7_subsample_and_refine (ker : NumericKernels) (opts : NsevOpts)
    (q guesses : List QC) (k : ℕ) (hk : 1 ≤ k) (hD : q.length = 2 ^ k)
    (hloc : opts.bound_state_localization = BsLoc.SUBSAMPLE_AND_REFINE) :
    2 ≤ (fnft__misc_downsample q q.length).2.1 ∧
    (∃ j, (fnft__misc_downsample q q.length).2.1 = 2 ^ j) ∧
    (fnft__misc_downsample q q.length).2.1 ∣ q.length ∧
    (fnft__misc_downsample q q.length).2.1 ≤ q.length ∧
    (fnft__misc_downsample q q.length).2.2 =
      q.length / (fnft__misc_downsample q q.length).2.1 ∧
    (fnft__misc_downsample q q.length).2.1 * (fnft__misc_downsample q q.length).2.2 =
      q.length ∧
    (2 < q.length → (fnft__misc_downsample q q.length).2.1 < q.length) ∧
    (fnft__misc_downsample q q.length).1.length = (fnft__misc_downsample q q.length).2.1 ∧
    nsevLocate ker opts q guesses =
      ker.newton opts.niter q (ker.fastEigen (fnft__misc_downsample q q.length).1) := by
  have hlog : log2floor q.length = k := by rw [hD]; exact log2floor_two_pow k
  have hDsub : (fnft__misc_downsample q q.length).2.1 = 2 ^ ((k + 1) / 2) := by
    simp [fnft__misc_downsample, downsampleDsub, hlog]
  have hdvd : (fnft__misc_downsample q q.length).2.1 ∣ q.length := by
    rw [hDsub, hD]
    exact pow_dvd_pow 2 (by omega)
  refine ⟨?_, ⟨(k + 1) / 2, hDsub⟩, hdvd, ?_, ?_, ?_, ?_, ?_, ?_⟩
  · rw [hDsub]
    calc 2 = 2 ^ 1 := rfl
    _ ≤ 2 ^ ((k + 1) / 2) := Nat.pow_le_pow_right (by norm_num) (by omega)
  · rw [hDsub, hD]
    exact Nat.pow_le_pow_right (by norm_num) (by omega)
  · simp [fnft__misc_downsample, downsampleDsub]
  · have hfac : (fnft__misc_downsample q q.length).2.2 =
        q.length / (fnft__misc_downsample q q.length).2.1 := by
      simp [fnft__misc_downsample, downsampleDsub]
    rw [hfac]
    exact Nat.mul_div_cancel' hdvd
  · intro hgt
    have hk2 : 2 ≤ k := by
      by_contra hlt
      have : k = 1 := by omega
      rw [this] at hD
      omega
    rw [hDsub, hD]
    exact Nat.pow_lt_pow_right (by norm_num) (by omega)
  · simp [fnft__misc_downsample, downsampleDsub]
  · simp [nsevLocate, hloc]

/-- Counterexample for C7 as stated: at the smallest admissible signal
length D = 2 the produced `Dsub` equals 2 = D, so the claimed strict bound
`Dsub < D` fails (while `2 ≤ Dsub` and `Dsub ∣ D` hold). -/
theorem C7_subsample_and_refine_counterexample :
    ([⟨0, 0⟩, ⟨1, 0⟩] : List QC).length = 2 ^ 1 ∧
    (fnft__misc_downsample [⟨0, 0⟩, ⟨1, 0⟩]
      ([⟨0, 0⟩, ⟨1, 0⟩] : List QC).length).2.1 = 2 ∧
    ¬ ((fnft__misc_downsample [⟨0, 0⟩, ⟨1, 0⟩]
      ([⟨0, 0⟩, ⟨1, 0⟩] : List QC).length).2.1 <
        ([⟨0, 0⟩, ⟨1, 0⟩] : List QC).length) := by
  decide

/-- Witness for C7 at the concrete input D = 4 = 2²: the decimated length
is at least 2, divides 4 and is strictly smaller than 4. -/
theorem C7_subsample_and_refine_witness :
    2 ≤ (fnft__misc_downsample [⟨1, 0⟩, ⟨2, 0⟩, ⟨3, 0⟩, ⟨4, 0⟩]
        ([⟨1, 0⟩, ⟨2, 0⟩, ⟨3, 0⟩, ⟨4, 0⟩] : List QC).length).2.1 ∧
    (fnft__misc_downsample [⟨1, 0⟩, ⟨2, 0⟩, ⟨3, 0⟩, ⟨4, 0⟩]
        ([⟨1, 0⟩, ⟨2, 0⟩, ⟨3, 0⟩, ⟨4, 0⟩] : List QC).length).2.1 ∣
      ([⟨1, 0⟩, ⟨2, 0⟩, ⟨3, 0⟩, ⟨4, 0⟩] : List QC).length ∧
    (fnft__misc_downsample [⟨1, 0⟩, ⟨2, 0⟩, ⟨3, 0⟩, ⟨4, 0⟩]
        ([⟨1, 0⟩, ⟨2, 0⟩, ⟨3, 0⟩, ⟨4, 0⟩] : List QC).length).2.1 <
      ([⟨1, 0⟩, ⟨2, 0⟩, ⟨3, 0⟩, ⟨4, 0⟩] : List QC).length := by
  have h := C7_subsample_and_refine trivKer fnft_nsev_default_opts
    [⟨1, 0⟩, ⟨2, 0⟩, ⟨3, 0⟩, ⟨4, 0⟩] [] 2 (by norm_num) (by decide) rfl
  exact ⟨h.1, h.2.2.1, h.2.2.2.2.2.2.1 (by norm_num)⟩
